import Mathlib

/-!
Verification of `hdbscan/plots.py`: the condensed-tree layout computation
(`get_plot_data`) and the excess-of-mass cluster selection (`_select_clusters`).

The condensed tree is a list of records `(parent, child, lambda, child_size)`.
Python dictionaries keyed by cluster id are modelled as functions
`ℕ → Option ℚ`; a `none` lookup corresponds to a Python `KeyError`, so every
operation that can raise is valued in `Option`.  `numpy` float arithmetic is
modelled exactly over `ℚ` (and over `ℝ` for the `log_size` mode, which is the
only place a transcendental function appears).
-/

set_option maxHeartbeats 1000000
set_option maxRecDepth 40000

namespace Hdbscan

/-- One row of the condensed tree array: `child` separates from `parent` at
density threshold `lambda`, subsuming `child_size` original data points. -/
structure Record where
  parent : ℕ
  child : ℕ
  lambda : ℚ
  child_size : ℕ
deriving DecidableEq

/-- The cluster tree: rows whose child is itself a cluster
(`condensed_tree[condensed_tree['child_size'] > 1]`). -/
def clusterTree (t : List Record) : List Record :=
  t.filter (fun r => 1 < r.child_size)

/-- Minimum of a list of naturals (0 for the empty list; only used on
nonempty lists). -/
def listMin : List ℕ → ℕ
  | [] => 0
  | a :: l => l.foldl min a

/-- Maximum of a list of naturals (0 for the empty list). -/
def listMax : List ℕ → ℕ
  | [] => 0
  | a :: l => l.foldl max a

/-- `self._raw_tree['parent'].min()`. -/
def rootId (t : List Record) : ℕ := listMin (t.map (fun r => r.parent))

/-- `self._raw_tree['parent'].max()`. -/
def lastLeaf (t : List Record) : ℕ := listMax (t.map (fun r => r.parent))

/-- `range(hi, lo - 1, -1)`: the descending list `[hi, hi-1, ..., lo]`
(empty when `hi < lo`). -/
def descRange (hi lo : ℕ) : List ℕ := (List.range' lo (hi + 1 - lo)).reverse

/-- `get_leaves`: cluster-tree children that never occur as a cluster-tree
parent, in the order they appear as children. -/
def get_leaves (condensed_tree : List Record) : List ℕ :=
  let ct := clusterTree condensed_tree
  (ct.map (fun r => r.child)).filter
    (fun c => (ct.filter (fun r => r.parent = c)).length = 0)

/-- `mapM` over `Option`, written out so that its equations are directly
usable in proofs. -/
def listMapM {α β : Type} (f : α → Option β) : List α → Option (List β)
  | [] => some []
  | a :: l => do
      let b ← f a
      let bs ← listMapM f l
      pure (b :: bs)

/-- `foldlM` over `Option`, written out so that its equations are directly
usable in proofs. -/
def listFoldlM {σ α : Type} (f : σ → α → Option σ) : σ → List α → Option σ
  | s, [] => some s
  | s, a :: l => do
      let s' ← f s a
      listFoldlM f s' l

/-- `dict(zip(leaves, [leaf_separation * x for x in range(len(leaves))]))`,
as a partial map from cluster id to x coordinate. -/
def initX (leaves : List ℕ) (leaf_separation : ℚ) : ℕ → Option ℚ :=
  leaves.enum.foldl
    (fun f p => Function.update f p.2 (some (leaf_separation * (p.1 : ℚ))))
    (fun _ => none)

/-- One iteration of the x/y propagation loop of `get_plot_data`: for the
given cluster, if it has exactly two cluster children, set its x to the mean
of the children's x and record each child's y (its split lambda).  A split
into three or more cluster children fails (`left_child, right_child = ...`
unpacking), and a missing child coordinate fails (`KeyError`). -/
def coordStep (cluster_tree : List Record) (st : (ℕ → Option ℚ) × (ℕ → Option ℚ))
    (cluster : ℕ) : Option ((ℕ → Option ℚ) × (ℕ → Option ℚ)) :=
  match cluster_tree.filter (fun r => r.parent = cluster) with
  | [] => some st
  | [_] => some st
  | [l, r] => do
      let xl ← st.1 l.child
      let xr ← st.1 r.child
      pure (Function.update st.1 cluster (some ((xl + xr) / 2)),
            Function.update (Function.update st.2 l.child (some l.lambda))
              r.child (some r.lambda))
  | _ :: _ :: _ :: _ => none

/-- The coordinate phase of `get_plot_data`: leaf x's, `cluster_y_coords =
{root: 0.0}`, then the loop `for cluster in range(last_leaf, root-1, -1)`. -/
def computeCoords (t : List Record) (leaf_separation : ℚ) :
    Option ((ℕ → Option ℚ) × (ℕ → Option ℚ)) :=
  listFoldlM (coordStep (clusterTree t))
    (initX (get_leaves t) leaf_separation,
     Function.update (fun _ => none) (rootId t) (some 0))
    (descRange (lastLeaf t) (rootId t))

/-- `np.max(c_children['lambda'])`; fails on an empty selection exactly as
`np.max` raises on an empty array. -/
def maxLam (rows : List Record) : Option ℚ :=
  match rows.map (fun r => r.lambda) with
  | [] => none
  | a :: l => some (l.foldl max a)

/-- The per-cluster data of the bar loop that involves dictionary lookups:
`current_lambda = cluster_y_coords[c]`, `cluster_x_coords[c]`, and
`np.max(c_children['lambda'])`, together with the raw child rows. -/
structure ClusterPlan where
  cid : ℕ
  x : ℚ
  y : ℚ
  top : ℚ
  rows : List Record
deriving DecidableEq

/-- The per-row data of the line loop that involves dictionary lookups:
`cluster_x_coords[parent]`, `cluster_x_coords[child]`,
`cluster_y_coords[child]`, and the row's `child_size`. -/
structure LinePlan where
  xp : ℚ
  xc : ℚ
  yc : ℚ
  child_size : ℕ
deriving DecidableEq

/-- All data of a `get_plot_data` run that can fail to be defined; the
remaining arithmetic (which never raises) is done by `renderLayout`. -/
structure Plan where
  scalingCount : ℕ
  clusters : List ClusterPlan
  lines : List LinePlan
deriving DecidableEq

/-- Resolve the lookups of one iteration of the bar loop of `get_plot_data`
(in the order the Python code performs them). -/
def clusterPlanFor (t : List Record) (xm ym : ℕ → Option ℚ) (c : ℕ) :
    Option ClusterPlan := do
  let c_children := t.filter (fun r => r.parent = c)
  let y ← ym c
  let x ← xm c
  let top ← maxLam c_children
  pure ⟨c, x, y, top, c_children⟩

/-- Resolve the lookups of one iteration of the line loop of
`get_plot_data`. -/
def linePlanFor (xm ym : ℕ → Option ℚ) (r : Record) : Option LinePlan := do
  let xp ← xm r.parent
  let xc ← xm r.child
  let yc ← ym r.child
  pure ⟨xp, xc, yc, r.child_size⟩

/-- All failure points of `get_plot_data`, in program order: the coordinate
phase, then one lookup bundle per cluster of `range(last_leaf, root-1, -1)`,
then one per cluster-tree row.  `scalingCount` is
`np.sum(raw_tree[raw_tree['parent'] == root]['child_size'])`. -/
def layoutPlan (t : List Record) (leaf_separation : ℚ) : Option Plan := do
  let cm ← computeCoords t leaf_separation
  let clusters ← listMapM (clusterPlanFor t cm.1 cm.2)
      (descRange (lastLeaf t) (rootId t))
  let lines ← listMapM (linePlanFor cm.1 cm.2) (clusterTree t)
  pure ⟨((t.filter (fun r => r.parent = rootId t)).map (fun r => r.child_size)).sum,
        clusters, lines⟩

/-- Stable insertion of a row into a list sorted by ascending `lambda`. -/
def insertLam (x : Record) : List Record → List Record
  | [] => [x]
  | a :: l => if a.lambda < x.lambda then a :: insertLam x l else x :: a :: l

/-- `np.argsort(c_children['lambda'])` realised as a sort of the rows by
ascending lambda (ties keep array order; the emitted bars do not depend on
the order chosen among equal lambdas). -/
def sortLam : List Record → List Record
  | [] => []
  | a :: l => insertLam a (sortLam l)

/-- The inner loop of the bar phase: walk the children in ascending lambda
order, emitting a bar `(center, top, bottom, width)` whenever the event
lambda differs from the running lambda, then shrinking `current_size` by the
child's mass via `dec` and advancing the running lambda. -/
def barLoop {α : Type} (dec : α → ℕ → α) (center : α) :
    α → ℚ → List Record → List (α × ℚ × ℚ × α)
  | _, _, [] => []
  | current_size, current_lambda, row :: rest =>
    (if row.lambda ≠ current_lambda then
        [(center, row.lambda - current_lambda, current_lambda, current_size)]
      else []) ++
      barLoop dec center (dec current_size row.child_size) row.lambda rest

/-- The geometry of `get_plot_data`'s result dictionary.  `cluster_bounds`
keeps the keys in the insertion order `range(last_leaf, root-1, -1)`, each
with its `(left, right, bottom, top)` box. -/
structure LayoutResult (α : Type) where
  bar_centers : List α
  bar_tops : List ℚ
  bar_bottoms : List ℚ
  bar_widths : List α
  line_xs : List (α × α)
  line_ys : List (ℚ × ℚ)
  cluster_bounds : List (ℕ × α × α × ℚ × ℚ)
deriving DecidableEq

/-- One cluster of the bar phase: its bounds entry and its emitted bars.
`enc` is the size transform (identity, or `log` when `log_size=True`) and
`dec` the corresponding decrement of `current_size`. -/
def renderCluster {α : Type} [Field α] (enc : ℕ → α) (dec : α → ℕ → α)
    (scaling : α) (cp : ClusterPlan) :
    (ℕ × α × α × ℚ × ℚ) × List (α × ℚ × ℚ × α) :=
  let current_size := enc ((cp.rows.map (fun r => r.child_size)).sum)
  let center := (cp.x : α) * scaling
  ((cp.cid, center - current_size / 2, center + current_size / 2, cp.y, cp.top),
   barLoop dec center current_size cp.y (sortLam cp.rows))

/-- `np.sign` on the exact rationals. -/
def sign (q : ℚ) : ℚ := if q < 0 then -1 else if q = 0 then 0 else 1

/-- One connector line: from `(parent_x*scaling, child_y)` to
`(child_x*scaling + sign*(child_size/2), child_y)`. -/
def renderLine {α : Type} [Field α] (enc : ℕ → α) (scaling : α) (lp : LinePlan) :
    (α × α) × (ℚ × ℚ) :=
  (((lp.xp : α) * scaling,
    (lp.xc : α) * scaling + (sign (lp.xc - lp.xp) : α) * (enc lp.child_size / 2)),
   (lp.yc, lp.yc))

/-- The arithmetic of `get_plot_data` on resolved lookups (this part of the
code cannot raise). -/
def renderLayout {α : Type} [Field α] (enc : ℕ → α) (dec : α → ℕ → α)
    (p : Plan) : LayoutResult α :=
  let scaling := enc p.scalingCount
  let rcs := p.clusters.map (renderCluster enc dec scaling)
  let bars := (rcs.map (fun pr => pr.2)).flatten
  let rls := p.lines.map (renderLine enc scaling)
  { bar_centers := bars.map (fun b => b.1)
    bar_tops := bars.map (fun b => b.2.1)
    bar_bottoms := bars.map (fun b => b.2.2.1)
    bar_widths := bars.map (fun b => b.2.2.2)
    line_xs := rls.map (fun pr => pr.1)
    line_ys := rls.map (fun pr => pr.2)
    cluster_bounds := rcs.map (fun pr => pr.1) }

/-- `CondensedTree.get_plot_data`, parametrised by the size transform:
`enc = Nat.cast, dec = subtraction` is `log_size=False`;
`enc = log, dec = s ↦ log (exp s - c)` is `log_size=True`. -/
def get_plot_data {α : Type} [Field α] (enc : ℕ → α) (dec : α → ℕ → α)
    (t : List Record) (leaf_separation : ℚ) : Option (LayoutResult α) :=
  (layoutPlan t leaf_separation).map (renderLayout enc dec)

/-- The `log_size=False` size transform. -/
def encQ : ℕ → ℚ := fun n => (n : ℚ)

/-- The `log_size=False` decrement `current_size -= row['child_size']`. -/
def decQ : ℚ → ℕ → ℚ := fun s c => s - (c : ℚ)

/-- `tree['child'][np.in1d(tree['parent'], to_process)]`. -/
def bfsStep (tree : List Record) (to_process : List ℕ) : List ℕ :=
  (tree.filter (fun r => r.parent ∈ to_process)).map (fun r => r.child)

/-- The while loop of `bfs_from_cluster_tree`, with explicit fuel (the loop
terminates on any tree whose cluster edges increase ids, see
`mem_bfs_of_pathLen`). -/
def bfsAux (tree : List Record) : ℕ → List ℕ → List ℕ
  | 0, _ => []
  | fuel + 1, to_process =>
    if to_process.isEmpty then []
    else to_process ++ bfsAux tree fuel (bfsStep tree to_process)

/-- `bfs_from_cluster_tree`: all nodes reachable from `bfs_root`, level by
level.  The fuel `max child id + 2` is enough for any list of edges with
`parent < child`. -/
def bfs_from_cluster_tree (tree : List Record) (bfs_root : ℕ) : List ℕ :=
  bfsAux tree (listMax (tree.map (fun r => r.child)) + 2) [bfs_root]

/-- The working state of `_select_clusters`: the (locally mutated) stability
map and the `is_cluster` flags. -/
structure SelState where
  stability : ℕ → ℚ
  is_cluster : ℕ → Bool

/-- `np.sum([stability[child] for child in cluster_tree['child'][child_selection]])`
at state `st`: the summed stability of `n`'s direct cluster children. -/
def subtreeStability (cluster_tree : List Record) (st : SelState) (n : ℕ) : ℚ :=
  (((cluster_tree.filter (fun r => r.parent = n)).map (fun r => r.child)).map
    st.stability).sum

/-- One iteration of the `_select_clusters` loop at `node`: compare the sum
of the direct cluster-children's (possibly rewritten) stabilities with the
node's own; either deselect the node and propagate the sum upward, or keep
the node and deselect its whole cluster subtree. -/
def selStep (cluster_tree : List Record) (st : SelState) (node : ℕ) : SelState :=
  if st.stability node < subtreeStability cluster_tree st node then
    { stability := Function.update st.stability node (subtreeStability cluster_tree st node)
      is_cluster := Function.update st.is_cluster node false }
  else
    { stability := st.stability
      is_cluster := fun m =>
        if m ≠ node ∧ m ∈ bfs_from_cluster_tree cluster_tree node then false
        else st.is_cluster m }

/-- `is_cluster = {cluster: True for cluster in node_list}` (a total function
is used; only ids of `node_list` are ever reported). -/
def initSelState (stability : ℕ → ℚ) : SelState := ⟨stability, fun _ => true⟩

/-- Modelled from the spec: `compute_stability` (imported from
`_hdbscan_tree`, which is not part of the sources) returns a stability score
keyed by every cluster id `rootId t, ..., lastLeaf t`, so
`sorted(stability.keys(), reverse=True)[:-1]` is the descending list of all
non-root cluster ids. -/
def node_list (t : List Record) : List ℕ := descRange (lastLeaf t) (rootId t + 1)

/-- `CondensedTree._select_clusters`, with the externally supplied stability
map passed in explicitly (the spec treats `compute_stability` as a black-box
provider). -/
def select_clusters (t : List Record) (stability : ℕ → ℚ) : List ℕ :=
  let final := (node_list t).foldl (selStep (clusterTree t)) (initSelState stability)
  (node_list t).filter (fun c => final.is_cluster c)

/-- The state visible to the iteration of `_select_clusters` that processes
`n`: all nodes with larger ids have already been processed. -/
def selBefore (t : List Record) (stability : ℕ → ℚ) (n : ℕ) : SelState :=
  (descRange (lastLeaf t) (n + 1)).foldl (selStep (clusterTree t))
    (initSelState stability)

/-- A path of `k` edges in (the cluster tree) `t` from one node down to a
descendant. -/
inductive PathLen (t : List Record) : ℕ → ℕ → ℕ → Prop
  | refl (a : ℕ) : PathLen t 0 a a
  | head {c : ℕ} {k : ℕ} (r : Record) (hr : r ∈ t) (hc : PathLen t k r.child c) :
      PathLen t (k + 1) r.parent c

/-- `b` is `a` or a descendant of `a` along edges of `t`. -/
def Reaches (t : List Record) (a b : ℕ) : Prop := ∃ k, PathLen t k a b

/-- The number of distinct cluster-tree nodes: the root together with every
distinct child of a `child_size > 1` record. -/
def clusterNodeCount (t : List Record) : ℕ :=
  ((rootId t :: (clusterTree t).map (fun r => r.child)).dedup).length

/-- Well-formedness of a condensed tree (section 3 of the specification):
nonempty record set; positive sizes and nonnegative lambdas; parents between
root and last leaf; every id in `[root, last_leaf]` occurs as a parent;
cluster edges go from smaller to larger ids, staying within the id range;
each cluster is the cluster-child of at most one parent; every non-root id of
the range is some cluster's child; at most two cluster children per node. -/
def WellFormed (t : List Record) : Prop :=
  t ≠ [] ∧
  (∀ r ∈ t, 1 ≤ r.child_size ∧ 0 ≤ r.lambda) ∧
  (∀ r ∈ t, rootId t ≤ r.parent ∧ r.parent ≤ lastLeaf t) ∧
  (∀ c ∈ List.range' (rootId t) (lastLeaf t + 1 - rootId t), ∃ r ∈ t, r.parent = c) ∧
  (∀ r ∈ clusterTree t, r.parent < r.child ∧ r.child ≤ lastLeaf t) ∧
  ((clusterTree t).map (fun r => r.child)).Nodup ∧
  (∀ c ∈ List.range' (rootId t + 1) (lastLeaf t - rootId t),
      c ∈ (clusterTree t).map (fun r => r.child)) ∧
  (∀ c ∈ List.range' (rootId t) (lastLeaf t + 1 - rootId t),
      ((clusterTree t).filter (fun r => r.parent = c)).length ≤ 2)

instance (t : List Record) : Decidable (WellFormed t) := by
  unfold WellFormed; infer_instance

/-- Every cluster-tree node has zero or two cluster children, and the root
has two (so the cluster tree has more than one node). -/
def FullBinary (t : List Record) : Prop :=
  (∀ c ∈ List.range' (rootId t) (lastLeaf t + 1 - rootId t),
      ((clusterTree t).filter (fun r => r.parent = c)).length = 0 ∨
      ((clusterTree t).filter (fun r => r.parent = c)).length = 2) ∧
  ((clusterTree t).filter (fun r => r.parent = rootId t)).length = 2

instance (t : List Record) : Decidable (FullBinary t) := by
  unfold FullBinary; infer_instance

/-- `get_plot_data` as a transformer of the `CondensedTree` object's state:
the raw tree it carries, and the freshly computed result. -/
def get_plot_data_st (t : List Record) (leaf_separation : ℚ) :
    List Record × Option (LayoutResult ℚ) :=
  (t, get_plot_data encQ decQ t leaf_separation)

/-- `_select_clusters` as a transformer of the `CondensedTree` object's
state. -/
def select_clusters_st (t : List Record) (stability : ℕ → ℚ) :
    List Record × List ℕ :=
  (t, select_clusters t stability)

/-! ### Basic facts about the helper functions -/

theorem mem_descRange {hi lo m : ℕ} : m ∈ descRange hi lo ↔ lo ≤ m ∧ m ≤ hi := by
  simp only [descRange, List.mem_reverse, List.mem_range'_1]
  omega

theorem descRange_concat {hi lo : ℕ} (h : lo ≤ hi) :
    descRange hi lo = descRange hi (lo + 1) ++ [lo] := by
  unfold descRange
  have h1 : hi + 1 - lo = (hi - lo) + 1 := by omega
  have h2 : hi + 1 - (lo + 1) = hi - lo := by omega
  rw [h1, h2, List.range'_succ, List.reverse_cons]

theorem descRange_split {hi lo n : ℕ} (h1 : lo ≤ n) (h2 : n ≤ hi) (h3 : 1 ≤ lo) :
    descRange hi lo = descRange hi (n + 1) ++ n :: descRange (n - 1) lo := by
  have hA : List.range' lo (n - lo) ++ List.range' n (hi + 1 - n)
      = List.range' lo (hi + 1 - lo) := by
    have h := List.range'_append_1 lo (n - lo) (hi + 1 - n)
    rw [Nat.add_sub_cancel' h1] at h
    rw [show hi + 1 - n + (n - lo) = hi + 1 - lo by omega] at h
    exact h
  have hB : List.range' n (hi + 1 - n) = n :: List.range' (n + 1) (hi - n) := by
    rw [show hi + 1 - n = (hi - n) + 1 by omega, List.range'_succ]
  unfold descRange
  rw [show hi + 1 - (n + 1) = hi - n by omega,
      show n - 1 + 1 - lo = n - lo by omega,
      ← hA, hB, List.reverse_append, List.reverse_cons, List.append_assoc,
      List.singleton_append]

theorem listMax_ge {l : List ℕ} {a : ℕ} (h : a ∈ l) : a ≤ listMax l := by
  have aux : ∀ (l' : List ℕ) (b : ℕ), b ≤ l'.foldl max b ∧ ∀ x ∈ l', x ≤ l'.foldl max b := by
    intro l'
    induction l' with
    | nil => intro b; exact ⟨le_refl b, by simp⟩
    | cons c l' ih =>
      intro b
      refine ⟨le_trans (le_max_left b c) (ih (max b c)).1, ?_⟩
      intro x hx
      rcases List.mem_cons.1 hx with rfl | hx
      · exact le_trans (le_max_right b x) (ih (max b x)).1
      · exact (ih (max b c)).2 x hx
  match l, h with
  | b :: l', h =>
    rcases List.mem_cons.1 h with rfl | h
    · exact (aux l' a).1
    · exact (aux l' b).2 a h

theorem listFoldlM_append {σ α : Type} (f : σ → α → Option σ) (s : σ) (l1 l2 : List α) :
    listFoldlM f s (l1 ++ l2) = (listFoldlM f s l1).bind (fun s' => listFoldlM f s' l2) := by
  induction l1 generalizing s with
  | nil => simp [listFoldlM]
  | cons a l ih =>
    simp only [List.cons_append, listFoldlM]
    cases f s a with
    | none => rfl
    | some s' => simpa using ih s'

theorem listMapM_isSome {α β : Type} {f : α → Option β} {l : List α}
    (h : ∀ a ∈ l, (f a).isSome) : (listMapM f l).isSome := by
  induction l with
  | nil => simp [listMapM]
  | cons a l ih =>
    obtain ⟨b, hb⟩ := Option.isSome_iff_exists.1 (h a (List.mem_cons_self a l))
    obtain ⟨bs, hbs⟩ := Option.isSome_iff_exists.1
      (ih (fun x hx => h x (List.mem_cons_of_mem a hx)))
    simp [listMapM, hb, hbs]

theorem listMapM_length {α β : Type} {f : α → Option β} :
    ∀ {l : List α} {ys : List β}, listMapM f l = some ys → ys.length = l.length := by
  intro l
  induction l with
  | nil =>
    intro ys h
    simp only [listMapM, Option.some_inj] at h
    subst h
    rfl
  | cons a l ih =>
    intro ys h
    simp only [listMapM, Option.bind_eq_bind, Option.bind_eq_some, Option.pure_def,
      Option.some_inj] at h
    obtain ⟨b, _, bs, hbs, rfl⟩ := h
    simp [ih hbs]

theorem listMapM_mem {α β : Type} {f : α → Option β} :
    ∀ {l : List α} {ys : List β}, listMapM f l = some ys →
      ∀ y ∈ ys, ∃ a ∈ l, f a = some y := by
  intro l
  induction l with
  | nil =>
    intro ys h
    simp only [listMapM, Option.some_inj] at h
    subst h
    intro y hy
    simp at hy
  | cons a l ih =>
    intro ys h
    simp only [listMapM, Option.bind_eq_bind, Option.bind_eq_some, Option.pure_def,
      Option.some_inj] at h
    obtain ⟨b, hb, bs, hbs, rfl⟩ := h
    intro y hy
    rcases List.mem_cons.1 hy with rfl | hy
    · exact ⟨a, List.mem_cons_self a l, hb⟩
    · obtain ⟨x, hx, hfx⟩ := ih hbs y hy
      exact ⟨x, List.mem_cons_of_mem a hx, hfx⟩

theorem insertLam_perm (x : Record) (l : List Record) :
    List.Perm (insertLam x l) (x :: l) := by
  induction l with
  | nil => exact List.Perm.refl _
  | cons a l ih =>
    unfold insertLam
    split
    · exact (List.Perm.cons a ih).trans (List.Perm.swap x a l)
    · exact List.Perm.refl _

theorem sortLam_perm (l : List Record) : List.Perm (sortLam l) l := by
  induction l with
  | nil => exact List.Perm.refl _
  | cons a l ih => exact (insertLam_perm a (sortLam l)).trans (List.Perm.cons a ih)

theorem clusterTree_subset {t : List Record} {r : Record} (h : r ∈ clusterTree t) :
    r ∈ t := (List.mem_filter.1 h).1

theorem maxLam_isSome {rows : List Record} (h : rows ≠ []) : (maxLam rows).isSome := by
  unfold maxLam
  match rows, h with
  | r :: rows, _ => simp

/-! ### Paths, reachability and breadth-first search -/

theorem PathLen.add_le_of_ordered {t : List Record}
    (hord : ∀ r ∈ t, r.parent < r.child) :
    ∀ {k a b : ℕ}, PathLen t k a b → a + k ≤ b := by
  intro k a b h
  induction h with
  | refl => omega
  | head r hr _ ih => have := hord r hr; omega

theorem PathLen.eq_of_zero {t : List Record} {a b : ℕ} (h : PathLen t 0 a b) : b = a := by
  cases h; rfl

theorem PathLen.endpoint {t : List Record} :
    ∀ {k a b : ℕ}, PathLen t k a b → (k = 0 ∧ b = a) ∨ ∃ r ∈ t, r.child = b := by
  intro k a b h
  induction h with
  | refl => exact Or.inl ⟨rfl, rfl⟩
  | head r hr hc ih =>
    rcases ih with ⟨_, rfl⟩ | h
    · exact Or.inr ⟨r, hr, rfl⟩
    · exact Or.inr h

theorem Reaches.le_of_ordered {t : List Record} (hord : ∀ r ∈ t, r.parent < r.child)
    {a b : ℕ} (h : Reaches t a b) : a ≤ b := by
  obtain ⟨k, hk⟩ := h
  have := hk.add_le_of_ordered hord
  omega

theorem mem_bfsStep {t : List Record} {fr : List ℕ} {x : ℕ} :
    x ∈ bfsStep t fr ↔ ∃ r ∈ t, r.parent ∈ fr ∧ r.child = x := by
  simp only [bfsStep, List.mem_map, List.mem_filter, decide_eq_true_eq]
  constructor
  · rintro ⟨r, ⟨hr, hp⟩, rfl⟩; exact ⟨r, hr, hp, rfl⟩
  · rintro ⟨r, hr, hp, rfl⟩; exact ⟨r, ⟨hr, hp⟩, rfl⟩

theorem bfsAux_sound {t : List Record} :
    ∀ {f : ℕ} {fr : List ℕ} {x : ℕ}, x ∈ bfsAux t f fr → ∃ y ∈ fr, Reaches t y x := by
  intro f
  induction f with
  | zero => intro fr x hx; simp [bfsAux] at hx
  | succ f ih =>
    intro fr x hx
    unfold bfsAux at hx
    split at hx
    · simp at hx
    · rcases List.mem_append.1 hx with h | h
      · exact ⟨x, h, 0, PathLen.refl x⟩
      · obtain ⟨y, hy, k, hk⟩ := ih h
        obtain ⟨r, hrt, hrp, rfl⟩ := mem_bfsStep.1 hy
        exact ⟨r.parent, hrp, k + 1, PathLen.head r hrt hk⟩

theorem mem_bfsAux_of_pathLen {t : List Record} :
    ∀ {k a x : ℕ}, PathLen t k a x →
      ∀ {f : ℕ} {fr : List ℕ}, a ∈ fr → k < f → x ∈ bfsAux t f fr := by
  intro k a x hp
  induction hp with
  | refl a =>
    intro f fr ha hf
    match f, hf with
    | f + 1, _ =>
      unfold bfsAux
      rw [if_neg (by simp [List.isEmpty_iff]; exact List.ne_nil_of_mem ha)]
      exact List.mem_append_left _ ha
  | head r hr hc ih =>
    intro f fr ha hf
    match f, hf with
    | f + 1, hf =>
      unfold bfsAux
      rw [if_neg (by simp [List.isEmpty_iff]; exact List.ne_nil_of_mem ha)]
      refine List.mem_append_right _ (ih ?_ (by omega))
      exact mem_bfsStep.2 ⟨r, hr, ha, rfl⟩

theorem mem_bfs_of_reaches {t : List Record} (hord : ∀ r ∈ t, r.parent < r.child)
    {n x : ℕ} (h : Reaches t n x) : x ∈ bfs_from_cluster_tree t n := by
  obtain ⟨k, hk⟩ := h
  refine mem_bfsAux_of_pathLen hk (List.mem_singleton_self n) ?_
  rcases hk.endpoint with ⟨rfl, rfl⟩ | ⟨r, hr, rfl⟩
  · omega
  · have h1 : n + k ≤ r.child := hk.add_le_of_ordered hord
    have h2 : r.child ≤ listMax (t.map (fun r => r.child)) :=
      listMax_ge (List.mem_map.2 ⟨r, hr, rfl⟩)
    omega

theorem le_of_mem_bfs {t : List Record} (hord : ∀ r ∈ t, r.parent < r.child)
    {n x : ℕ} (h : x ∈ bfs_from_cluster_tree t n) : n ≤ x := by
  obtain ⟨y, hy, hr⟩ := bfsAux_sound h
  rcases List.mem_singleton.1 hy
  exact hr.le_of_ordered hord

/-! ### Well-formedness accessors -/

theorem WellFormed.ordered {t : List Record} (h : WellFormed t) :
    ∀ r ∈ clusterTree t, r.parent < r.child := fun r hr => (h.2.2.2.2.1 r hr).1

theorem WellFormed.child_le {t : List Record} (h : WellFormed t) :
    ∀ r ∈ clusterTree t, r.child ≤ lastLeaf t := fun r hr => (h.2.2.2.2.1 r hr).2

theorem WellFormed.sizes {t : List Record} (h : WellFormed t) :
    ∀ r ∈ t, 1 ≤ r.child_size := fun r hr => (h.2.1 r hr).1

theorem WellFormed.parent_bounds {t : List Record} (h : WellFormed t) :
    ∀ r ∈ t, rootId t ≤ r.parent ∧ r.parent ≤ lastLeaf t := h.2.2.1

theorem WellFormed.parent_occurs {t : List Record} (h : WellFormed t) :
    ∀ c ∈ List.range' (rootId t) (lastLeaf t + 1 - rootId t), ∃ r ∈ t, r.parent = c :=
  h.2.2.2.1

theorem WellFormed.children_nodup {t : List Record} (h : WellFormed t) :
    ((clusterTree t).map (fun r => r.child)).Nodup := h.2.2.2.2.2.1

theorem WellFormed.children_cover {t : List Record} (h : WellFormed t) :
    ∀ c ∈ List.range' (rootId t + 1) (lastLeaf t - rootId t),
      c ∈ (clusterTree t).map (fun r => r.child) := h.2.2.2.2.2.2.1

theorem WellFormed.root_le_lastLeaf {t : List Record} (h : WellFormed t) :
    rootId t ≤ lastLeaf t := by
  match t, h.1 with
  | r :: t', _ =>
    have := h.parent_bounds r (List.mem_cons_self r t')
    omega

/-! ### The selection loop, step by step -/

theorem selStep_stability_ne {ct : List Record} {st : SelState} {node x : ℕ}
    (h : x ≠ node) : (selStep ct st node).stability x = st.stability x := by
  unfold selStep
  split
  · exact Function.update_noteq h _ _
  · rfl

theorem selStep_stability_self {ct : List Record} {st : SelState} {node : ℕ}
    (h : st.stability node < subtreeStability ct st node) :
    (selStep ct st node).stability node = subtreeStability ct st node := by
  unfold selStep
  rw [if_pos h]
  exact Function.update_same _ _ _

theorem selStep_is_cluster_self_false {ct : List Record} {st : SelState} {node : ℕ}
    (h : st.stability node < subtreeStability ct st node) :
    (selStep ct st node).is_cluster node = false := by
  unfold selStep
  rw [if_pos h]
  exact Function.update_same _ _ _

theorem selStep_is_cluster_self_else {ct : List Record} {st : SelState} {node : ℕ}
    (h : ¬ st.stability node < subtreeStability ct st node) :
    (selStep ct st node).is_cluster node = st.is_cluster node := by
  unfold selStep
  rw [if_neg h]
  exact if_neg (fun hc => hc.1 rfl)

theorem selStep_is_cluster_desc_false {ct : List Record} {st : SelState} {node d : ℕ}
    (h : ¬ st.stability node < subtreeStability ct st node)
    (hd : d ≠ node) (hbfs : d ∈ bfs_from_cluster_tree ct node) :
    (selStep ct st node).is_cluster d = false := by
  unfold selStep
  rw [if_neg h]
  exact if_pos ⟨hd, hbfs⟩

theorem selStep_is_cluster_lt {ct : List Record}
    (hord : ∀ r ∈ ct, r.parent < r.child) {st : SelState} {node x : ℕ}
    (h : x < node) : (selStep ct st node).is_cluster x = st.is_cluster x := by
  unfold selStep
  split
  · exact Function.update_noteq (by omega) _ _
  · refine if_neg ?_
    rintro ⟨_, hbfs⟩
    exact absurd (le_of_mem_bfs hord hbfs) (by omega)

theorem selStep_is_cluster_false {ct : List Record} {st : SelState} {node x : ℕ}
    (h : st.is_cluster x = false) :
    (selStep ct st node).is_cluster x = false := by
  unfold selStep
  split
  · by_cases hx : x = node
    · subst hx; exact Function.update_same _ _ _
    · show Function.update st.is_cluster node false x = false
      rw [Function.update_noteq hx]; exact h
  · dsimp only
    split
    · rfl
    · exact h

theorem selRun_stability_ne {ct : List Record} :
    ∀ {l : List ℕ} {st : SelState} {x : ℕ}, (∀ m ∈ l, x ≠ m) →
      (l.foldl (selStep ct) st).stability x = st.stability x := by
  intro l
  induction l with
  | nil => intro st x _; rfl
  | cons a l ih =>
    intro st x h
    rw [List.foldl_cons, ih (fun m hm => h m (List.mem_cons_of_mem a hm)),
      selStep_stability_ne (h a (List.mem_cons_self a l))]

theorem selRun_is_cluster_gt {ct : List Record} (hord : ∀ r ∈ ct, r.parent < r.child) :
    ∀ {l : List ℕ} {st : SelState} {x : ℕ}, (∀ m ∈ l, x < m) →
      (l.foldl (selStep ct) st).is_cluster x = st.is_cluster x := by
  intro l
  induction l with
  | nil => intro st x _; rfl
  | cons a l ih =>
    intro st x h
    rw [List.foldl_cons, ih (fun m hm => h m (List.mem_cons_of_mem a hm)),
      selStep_is_cluster_lt hord (h a (List.mem_cons_self a l))]

theorem selRun_is_cluster_false {ct : List Record} :
    ∀ {l : List ℕ} {st : SelState} {x : ℕ}, st.is_cluster x = false →
      (l.foldl (selStep ct) st).is_cluster x = false := by
  intro l
  induction l with
  | nil => intro st x h; exact h
  | cons a l ih =>
    intro st x h
    rw [List.foldl_cons]
    exact ih (selStep_is_cluster_false h)

theorem mem_select_clusters {t : List Record} {stab : ℕ → ℚ} {c : ℕ} :
    c ∈ select_clusters t stab ↔ c ∈ node_list t ∧
      ((node_list t).foldl (selStep (clusterTree t)) (initSelState stab)).is_cluster c
        = true := by
  simp [select_clusters, List.mem_filter]

theorem node_list_split {t : List Record} {n : ℕ} (hn : n ∈ node_list t) :
    node_list t
      = descRange (lastLeaf t) (n + 1) ++ n :: descRange (n - 1) (rootId t + 1) := by
  obtain ⟨h1, h2⟩ := mem_descRange.1 hn
  exact descRange_split h1 h2 (by omega)

theorem final_state_eq {t : List Record} {stab : ℕ → ℚ} {n : ℕ} (hn : n ∈ node_list t) :
    (node_list t).foldl (selStep (clusterTree t)) (initSelState stab)
      = (descRange (n - 1) (rootId t + 1)).foldl (selStep (clusterTree t))
          (selStep (clusterTree t) (selBefore t stab n) n) := by
  conv_lhs => rw [node_list_split hn]
  rw [List.foldl_append, List.foldl_cons]
  rfl

theorem selBefore_is_cluster_self {t : List Record}
    (hord : ∀ r ∈ clusterTree t, r.parent < r.child) (stab : ℕ → ℚ) (n : ℕ) :
    (selBefore t stab n).is_cluster n = true := by
  unfold selBefore
  rw [selRun_is_cluster_gt hord (fun m hm => by have := mem_descRange.1 hm; omega)]
  rfl

/-- Shared spec of the `if` branch of an iteration of `_select_clusters`:
the node is deselected for good, and its stability entry holds the propagated
subtree sum in the final state (ancestors are only evaluated later). -/
theorem selIf_spec (t : List Record) (stab : ℕ → ℚ) (n : ℕ) (hn : n ∈ node_list t)
    (hlt : (selBefore t stab n).stability n
      < subtreeStability (clusterTree t) (selBefore t stab n) n) :
    n ∉ select_clusters t stab ∧
    ((node_list t).foldl (selStep (clusterTree t)) (initSelState stab)).stability n
      = subtreeStability (clusterTree t) (selBefore t stab n) n := by
  constructor
  · intro hmem
    have hfl := (mem_select_clusters.1 hmem).2
    rw [final_state_eq hn,
      selRun_is_cluster_false (selStep_is_cluster_self_false hlt)] at hfl
    exact Bool.false_ne_true hfl
  · rw [final_state_eq hn,
      selRun_stability_ne (fun m hm => by have := mem_descRange.1 hm; omega)]
    exact selStep_stability_self hlt

/-- Shared spec of the `else` branch of an iteration of `_select_clusters`:
the node keeps its selection flag, and every proper cluster-tree descendant
is deselected, there and in the final result. -/
theorem selElse_spec (t : List Record) (stab : ℕ → ℚ) (hWF : WellFormed t)
    (n : ℕ) (hn : n ∈ node_list t)
    (hge : ¬ (selBefore t stab n).stability n
      < subtreeStability (clusterTree t) (selBefore t stab n) n) :
    (selStep (clusterTree t) (selBefore t stab n) n).is_cluster n = true ∧
    ∀ d, Reaches (clusterTree t) n d → d ≠ n →
      (selStep (clusterTree t) (selBefore t stab n) n).is_cluster d = false ∧
      d ∉ select_clusters t stab := by
  have hord := hWF.ordered
  constructor
  · rw [selStep_is_cluster_self_else hge]
    exact selBefore_is_cluster_self hord stab n
  · intro d hreach hdn
    have hstep : (selStep (clusterTree t) (selBefore t stab n) n).is_cluster d = false :=
      selStep_is_cluster_desc_false hge hdn (mem_bfs_of_reaches hord hreach)
    refine ⟨hstep, ?_⟩
    intro hmem
    have hfl := (mem_select_clusters.1 hmem).2
    rw [final_state_eq hn, selRun_is_cluster_false hstep] at hfl
    exact Bool.false_ne_true hfl

/-- C1.  At each non-root node `n`, processed in descending id order: if the
summed (possibly rewritten) stability of `n`'s direct cluster children
exceeds `stability[n]`, then `n` is not in the returned selection and
`stability[n]` holds the propagated sum from that iteration on (so before any
ancestor is evaluated); otherwise `n` keeps its selection flag at its own
step and every proper cluster-tree descendant of `n` is deselected, never to
return. -/
theorem select_clusters_step_correct (t : List Record) (stab : ℕ → ℚ)
    (hWF : WellFormed t) (n : ℕ) (hn : n ∈ node_list t) :
    ((selBefore t stab n).stability n
        < subtreeStability (clusterTree t) (selBefore t stab n) n →
      n ∉ select_clusters t stab ∧
      ((node_list t).foldl (selStep (clusterTree t)) (initSelState stab)).stability n
        = subtreeStability (clusterTree t) (selBefore t stab n) n) ∧
    (¬ (selBefore t stab n).stability n
        < subtreeStability (clusterTree t) (selBefore t stab n) n →
      (selStep (clusterTree t) (selBefore t stab n) n).is_cluster n = true ∧
      ∀ d, Reaches (clusterTree t) n d → d ≠ n →
        (selStep (clusterTree t) (selBefore t stab n) n).is_cluster d = false ∧
        d ∉ select_clusters t stab) :=
  ⟨fun hlt => selIf_spec t stab n hn hlt, fun hge => selElse_spec t stab hWF n hn hge⟩

/-- C2.  The returned selection is an antichain of the cluster tree: no
selected cluster is an ancestor (or descendant) of another selected
cluster. -/
theorem select_clusters_antichain (t : List Record) (stab : ℕ → ℚ)
    (hWF : WellFormed t) :
    ∀ a ∈ select_clusters t stab, ∀ b ∈ select_clusters t stab,
      Reaches (clusterTree t) a b → a = b := by
  intro a ha b hb hab
  by_contra hne
  have hord := hWF.ordered
  obtain ⟨haN, hafl⟩ := mem_select_clusters.1 ha
  obtain ⟨_, hbfl⟩ := mem_select_clusters.1 hb
  by_cases hlt : (selBefore t stab a).stability a
      < subtreeStability (clusterTree t) (selBefore t stab a) a
  · rw [final_state_eq haN,
      selRun_is_cluster_false (selStep_is_cluster_self_false hlt)] at hafl
    exact Bool.false_ne_true hafl
  · have hstep := selStep_is_cluster_desc_false hlt (fun h => hne h.symm)
      (mem_bfs_of_reaches hord hab)
    rw [final_state_eq haN, selRun_is_cluster_false hstep] at hbfl
    exact Bool.false_ne_true hbfl

/-- C6 (amended).  When the summed stability of `n`'s direct cluster children
exactly ties `stability[n]`, the non-strict comparison favours `n`: the
iteration at `n` keeps `n` selected (its own step does not deselect it) and
removes every proper descendant of `n` from the final selection.  (`n` itself
can still be absorbed later by an ancestor's iteration, see
`tie_node_dropped_cex`.) -/
theorem select_clusters_tie_absorbs (t : List Record) (stab : ℕ → ℚ)
    (hWF : WellFormed t) (n : ℕ) (hn : n ∈ node_list t)
    (htie : subtreeStability (clusterTree t) (selBefore t stab n) n
      = (selBefore t stab n).stability n) :
    (selStep (clusterTree t) (selBefore t stab n) n).is_cluster n = true ∧
    ∀ d, Reaches (clusterTree t) n d → d ≠ n →
      (selStep (clusterTree t) (selBefore t stab n) n).is_cluster d = false ∧
      d ∉ select_clusters t stab :=
  selElse_spec t stab hWF n hn (by rw [htie]; exact lt_irrefl _)

/-! ### Concrete inputs -/

/-- The specification's concrete scenario: root `0` splits into clusters `1`
(lambda 1/2, size 40) and `2` (lambda 1/2, size 60); cluster `1` splits into
leaves `3` (lambda 1, size 15) and `4` (lambda 1, size 25); clusters `2`,
`3`, `4` shed their points at lambda 1. -/
def scenarioTree : List Record :=
  [⟨0, 1, 1/2, 40⟩, ⟨0, 2, 1/2, 60⟩, ⟨1, 3, 1, 15⟩, ⟨1, 4, 1, 25⟩] ++
  (List.range 60).map (fun i => ⟨2, 100 + i, 1, 1⟩) ++
  (List.range 15).map (fun i => ⟨3, 200 + i, 1, 1⟩) ++
  (List.range 25).map (fun i => ⟨4, 300 + i, 1, 1⟩)

/-- The specification's stability scores `{1: 5, 2: 5, 3: 2, 4: 2}` for the
scenario tree. -/
def scenarioStability : ℕ → ℚ := fun n =>
  if n = 1 then 5 else if n = 2 then 5 else if n = 3 then 2
  else if n = 4 then 2 else 0

/-- A chain `0 → 1 → 2 → 3` of clusters (each with a single cluster child),
whose points drop off the last cluster. -/
def tieChainTree : List Record :=
  [⟨0, 1, 1/2, 8⟩, ⟨1, 2, 1, 4⟩, ⟨2, 3, 2, 2⟩, ⟨3, 10, 3, 1⟩, ⟨3, 11, 3, 1⟩]

/-- Stability scores for `tieChainTree` producing a tie at every node. -/
def tieChainStability : ℕ → ℚ := fun n =>
  if n = 1 then 5 else if n = 2 then 5 else if n = 3 then 5 else 0

/-- A two-level binary tree: root `0` splits into clusters `1` and `4`, and
`1` splits into clusters `2` and `3`; every leaf cluster sheds two points. -/
def tieTree : List Record :=
  [⟨0, 1, 1/2, 4⟩, ⟨0, 4, 1/2, 2⟩, ⟨1, 2, 1, 2⟩, ⟨1, 3, 1, 2⟩,
   ⟨2, 10, 2, 1⟩, ⟨2, 11, 2, 1⟩, ⟨3, 12, 2, 1⟩, ⟨3, 13, 2, 1⟩,
   ⟨4, 14, 2, 1⟩, ⟨4, 15, 2, 1⟩]

/-- Stability scores for `tieTree` with an exact tie at node `1`:
`stability[2] + stability[3] = 3 + 2 = 5 = stability[1]`. -/
def tieStability : ℕ → ℚ := fun n =>
  if n = 1 then 5 else if n = 2 then 3 else if n = 3 then 2 else 0

/-- A well-formed tree whose cluster `0` has exactly one cluster child. -/
def oneChildTree : List Record :=
  [⟨0, 1, 1/2, 2⟩, ⟨1, 5, 1, 1⟩, ⟨1, 6, 1, 1⟩, ⟨0, 7, 1/4, 1⟩]

/-- A well-formed single-node tree: every child of the root is an individual
data point, so the cluster tree has zero leaves. -/
def pointOnlyTree : List Record :=
  [⟨0, 1, 1, 1⟩, ⟨0, 2, 1, 1⟩]

/-- Witness for C1 at the scenario tree, node `3` (a leaf, so the `else`
branch applies with subtree stability 0). -/
theorem select_clusters_step_correct_witness :
    WellFormed scenarioTree ∧ 3 ∈ node_list scenarioTree ∧
    (((selBefore scenarioTree scenarioStability 3).stability 3
        < subtreeStability (clusterTree scenarioTree)
            (selBefore scenarioTree scenarioStability 3) 3 →
      3 ∉ select_clusters scenarioTree scenarioStability ∧
      ((node_list scenarioTree).foldl (selStep (clusterTree scenarioTree))
          (initSelState scenarioStability)).stability 3
        = subtreeStability (clusterTree scenarioTree)
            (selBefore scenarioTree scenarioStability 3) 3) ∧
    (¬ (selBefore scenarioTree scenarioStability 3).stability 3
        < subtreeStability (clusterTree scenarioTree)
            (selBefore scenarioTree scenarioStability 3) 3 →
      (selStep (clusterTree scenarioTree)
          (selBefore scenarioTree scenarioStability 3) 3).is_cluster 3 = true ∧
      ∀ d, Reaches (clusterTree scenarioTree) 3 d → d ≠ 3 →
        (selStep (clusterTree scenarioTree)
            (selBefore scenarioTree scenarioStability 3) 3).is_cluster d = false ∧
        d ∉ select_clusters scenarioTree scenarioStability)) :=
  ⟨by with_unfolding_all decide, by with_unfolding_all decide,
    select_clusters_step_correct scenarioTree scenarioStability (by with_unfolding_all decide) 3 (by with_unfolding_all decide)⟩

/-- Witness for C2 at the scenario tree with the specification's stability
scores. -/
theorem select_clusters_antichain_witness :
    WellFormed scenarioTree ∧
    (∀ a ∈ select_clusters scenarioTree scenarioStability,
      ∀ b ∈ select_clusters scenarioTree scenarioStability,
        Reaches (clusterTree scenarioTree) a b → a = b) :=
  ⟨by with_unfolding_all decide, select_clusters_antichain scenarioTree scenarioStability (by with_unfolding_all decide)⟩

/-- C6, counterexample to the claim as stated: in `tieChainTree` with
`tieChainStability`, node `2`'s direct cluster-children's summed stability
exactly equals `stability[2]` when `2` is processed, yet `2` is not in the
final selection (node `1` later absorbs its subtree, also by a tie). -/
theorem tie_node_dropped_cex :
    WellFormed tieChainTree ∧ 2 ∈ node_list tieChainTree ∧
    subtreeStability (clusterTree tieChainTree)
        (selBefore tieChainTree tieChainStability 2) 2
      = (selBefore tieChainTree tieChainStability 2).stability 2 ∧
    2 ∉ select_clusters tieChainTree tieChainStability := by
  with_unfolding_all decide

/-- Witness for the amended C6 at `tieTree`, node `1` (an exact tie). -/
theorem select_clusters_tie_absorbs_witness :
    WellFormed tieTree ∧ 1 ∈ node_list tieTree ∧
    subtreeStability (clusterTree tieTree) (selBefore tieTree tieStability 1) 1
      = (selBefore tieTree tieStability 1).stability 1 ∧
    ((selStep (clusterTree tieTree) (selBefore tieTree tieStability 1) 1).is_cluster 1
        = true ∧
      ∀ d, Reaches (clusterTree tieTree) 1 d → d ≠ 1 →
        (selStep (clusterTree tieTree)
            (selBefore tieTree tieStability 1) 1).is_cluster d = false ∧
        d ∉ select_clusters tieTree tieStability) :=
  ⟨by with_unfolding_all decide, by with_unfolding_all decide, by with_unfolding_all decide,
    select_clusters_tie_absorbs tieTree tieStability (by with_unfolding_all decide) 1 (by with_unfolding_all decide) (by with_unfolding_all decide)⟩

/-- C9.  Layout and selection are functions of the tree snapshot: the tree
carried by the object is unchanged by either operation, composing them sees
the original tree, and each result is exactly the freshly computed value. -/
theorem tree_not_mutated (t : List Record) (leaf_separation : ℚ) (stab : ℕ → ℚ) :
    (get_plot_data_st t leaf_separation).1 = t ∧
    (select_clusters_st t stab).1 = t ∧
    (select_clusters_st (get_plot_data_st t leaf_separation).1 stab).2
      = select_clusters t stab ∧
    (get_plot_data_st t leaf_separation).2 = get_plot_data encQ decQ t leaf_separation ∧
    (select_clusters_st t stab).2 = select_clusters t stab :=
  ⟨rfl, rfl, rfl, rfl, rfl⟩

/-! ### Totality of the layout on full binary cluster trees -/

theorem update_isSome {f : ℕ → Option ℚ} {a x : ℕ} {v : ℚ}
    (h : x = a ∨ (f x).isSome) : (Function.update f a (some v) x).isSome := by
  rcases h with rfl | h
  · simp
  · by_cases hx : x = a
    · subst hx; simp
    · rw [Function.update_noteq hx]; exact h

theorem initX_isSome {leaves : List ℕ} {sep : ℚ} {c : ℕ} (h : c ∈ leaves) :
    (initX leaves sep c).isSome := by
  have aux : ∀ (l : List (ℕ × ℕ)) (f : ℕ → Option ℚ),
      (c ∈ l.map Prod.snd ∨ (f c).isSome) →
      ((l.foldl (fun (g : ℕ → Option ℚ) (p : ℕ × ℕ) =>
        Function.update g p.2 (some (sep * (p.1 : ℚ)))) f) c).isSome := by
    intro l
    induction l with
    | nil =>
      intro f hf
      rcases hf with hf | hf
      · simp at hf
      · exact hf
    | cons p l ih =>
      intro f hf
      rw [List.foldl_cons]
      apply ih
      by_cases hc : c = p.2
      · exact Or.inr (update_isSome (Or.inl hc))
      · rcases hf with hf | hf
        · rw [List.map_cons, List.mem_cons] at hf
          rcases hf with h1 | h1
          · exact absurd h1 hc
          · exact Or.inl h1
        · exact Or.inr (update_isSome (Or.inr hf))
  apply aux
  rw [List.enum_map_snd]
  exact Or.inl h

theorem mem_filter_parent {l : List Record} {r : Record} {m : ℕ} :
    r ∈ l.filter (fun r => r.parent = m) ↔ r ∈ l ∧ r.parent = m := by
  simp [List.mem_filter]

theorem mem_get_leaves {t : List Record} {c : ℕ}
    (hc : c ∈ (clusterTree t).map (fun r => r.child))
    (hnc : (clusterTree t).filter (fun r => r.parent = c) = []) :
    c ∈ get_leaves t := by
  unfold get_leaves
  rw [List.mem_filter]
  exact ⟨hc, by simp [hnc]⟩

theorem coords_fold_spec (t : List Record) (sep : ℚ) (hWF : WellFormed t)
    (hFB : FullBinary t) :
    ∀ d : ℕ, d ≤ lastLeaf t + 1 - rootId t →
    ∃ xm ym, listFoldlM (coordStep (clusterTree t))
        (initX (get_leaves t) sep, Function.update (fun _ => none) (rootId t) (some 0))
        (descRange (lastLeaf t) (lastLeaf t + 1 - d)) = some (xm, ym) ∧
      (∀ c ∈ get_leaves t, (xm c).isSome) ∧
      (∀ c, lastLeaf t + 1 - d ≤ c → c ≤ lastLeaf t → (xm c).isSome) ∧
      (∀ r ∈ clusterTree t, lastLeaf t + 1 - d ≤ r.parent → (ym r.child).isSome) ∧
      (ym (rootId t)).isSome := by
  have hrl : rootId t ≤ lastLeaf t := hWF.root_le_lastLeaf
  intro d
  induction d with
  | zero =>
    intro _
    refine ⟨initX (get_leaves t) sep,
      Function.update (fun _ => none) (rootId t) (some 0), ?_, ?_, ?_, ?_, ?_⟩
    · rw [show descRange (lastLeaf t) (lastLeaf t + 1 - 0) = [] by
        simp [descRange]]
      rfl
    · intro c hc; exact initX_isSome hc
    · intro c hc1 hc2; omega
    · intro r hr hp
      have := (hWF.parent_bounds r (clusterTree_subset hr)).2
      omega
    · exact update_isSome (Or.inl rfl)
  | succ d ih =>
    intro hd
    obtain ⟨xm, ym, hfold, hleaf, hx, hy, hyroot⟩ := ih (by omega)
    set m := lastLeaf t + 1 - (d + 1) with hm
    have hmll : m ≤ lastLeaf t := by omega
    have hmroot : rootId t ≤ m := by omega
    have hsplit : descRange (lastLeaf t) m
        = descRange (lastLeaf t) (lastLeaf t + 1 - d) ++ [m] := by
      rw [descRange_concat hmll, show m + 1 = lastLeaf t + 1 - d by omega]
    have hmem : m ∈ List.range' (rootId t) (lastLeaf t + 1 - rootId t) := by
      rw [List.mem_range'_1]
      omega
    have hstep : ∀ st', coordStep (clusterTree t) (xm, ym) m = some st' →
        ∃ xm' ym', coordStep (clusterTree t) (xm, ym) m = some (xm', ym') := by
      intro st' h
      exact ⟨st'.1, st'.2, h⟩
    rcases hFB.1 m hmem with hlen | hlen
    · -- no cluster children: the iteration is a no-op and `m` is a leaf
      have hfilter : (clusterTree t).filter (fun r => r.parent = m) = [] :=
        List.length_eq_zero.1 hlen
      have hmleaf : m ∈ get_leaves t := by
        have hmne : m ≠ rootId t := by
          intro heq
          have h2 := hFB.2
          rw [← heq, hfilter] at h2
          simp at h2
        refine mem_get_leaves ?_ hfilter
        apply hWF.children_cover
        rw [List.mem_range'_1]
        omega
      refine ⟨xm, ym, ?_, hleaf, ?_, ?_, hyroot⟩
      · rw [hsplit, listFoldlM_append, hfold]
        show (coordStep (clusterTree t) (xm, ym) m).bind _ = _
        simp only [coordStep, hfilter]
        rfl
      · intro c hc1 hc2
        by_cases hcm : c = m
        · rw [hcm]; exact hleaf m hmleaf
        · exact hx c (by omega) hc2
      · intro r hr hp
        by_cases hpm : r.parent = m
        · have hmem' : r ∈ (clusterTree t).filter (fun r => r.parent = m) :=
            mem_filter_parent.2 ⟨hr, hpm⟩
          rw [hfilter] at hmem'
          simp at hmem'
        · exact hy r hr (by omega)
    · -- exactly two cluster children
      obtain ⟨r1, r2, hfilter⟩ := List.length_eq_two.1 hlen
      have hr1 : r1 ∈ (clusterTree t).filter (fun r => r.parent = m) := by
        rw [hfilter]; exact List.mem_cons_self _ _
      have hr2 : r2 ∈ (clusterTree t).filter (fun r => r.parent = m) := by
        rw [hfilter]; exact List.mem_cons_of_mem _ (List.mem_cons_self _ _)
      obtain ⟨hr1ct, hr1p⟩ := mem_filter_parent.1 hr1
      obtain ⟨hr2ct, hr2p⟩ := mem_filter_parent.1 hr2
      have hc1 : m < r1.child := hr1p ▸ hWF.ordered r1 hr1ct
      have hc2 : m < r2.child := hr2p ▸ hWF.ordered r2 hr2ct
      have hl1 : r1.child ≤ lastLeaf t := hWF.child_le r1 hr1ct
      have hl2 : r2.child ≤ lastLeaf t := hWF.child_le r2 hr2ct
      obtain ⟨xl, hxl⟩ := Option.isSome_iff_exists.1 (hx r1.child (by omega) hl1)
      obtain ⟨xr, hxr⟩ := Option.isSome_iff_exists.1 (hx r2.child (by omega) hl2)
      refine ⟨Function.update xm m (some ((xl + xr) / 2)),
        Function.update (Function.update ym r1.child (some r1.lambda))
          r2.child (some r2.lambda), ?_, ?_, ?_, ?_, ?_⟩
      · rw [hsplit, listFoldlM_append, hfold]
        show (coordStep (clusterTree t) (xm, ym) m).bind _ = _
        simp only [coordStep, hfilter, hxl, hxr]
        rfl
      · intro c hc
        exact update_isSome (Or.inr (hleaf c hc))
      · intro c hcm hcl
        by_cases hc : c = m
        · exact update_isSome (Or.inl hc)
        · exact update_isSome (Or.inr (hx c (by omega) hcl))
      · intro r hr hp
        by_cases hpm : r.parent = m
        · have hmem' : r ∈ (clusterTree t).filter (fun r => r.parent = m) :=
            mem_filter_parent.2 ⟨hr, hpm⟩
          rw [hfilter] at hmem'
          rcases List.mem_cons.1 hmem' with rfl | hmem'
          · exact update_isSome (Or.inr (update_isSome (Or.inl rfl)))
          · rcases List.mem_cons.1 hmem' with rfl | hmem'
            · exact update_isSome (Or.inl rfl)
            · simp at hmem'
        · exact update_isSome (Or.inr (update_isSome (Or.inr (hy r hr (by omega)))))
      · exact update_isSome (Or.inr (update_isSome (Or.inr hyroot)))

theorem computeCoords_spec (t : List Record) (sep : ℚ) (hWF : WellFormed t)
    (hFB : FullBinary t) :
    ∃ xm ym, computeCoords t sep = some (xm, ym) ∧
      (∀ c, rootId t ≤ c → c ≤ lastLeaf t → (xm c).isSome) ∧
      (∀ c, rootId t ≤ c → c ≤ lastLeaf t → (ym c).isSome) := by
  have hrl : rootId t ≤ lastLeaf t := hWF.root_le_lastLeaf
  obtain ⟨xm, ym, hfold, hleaf, hx, hy, hyroot⟩ :=
    coords_fold_spec t sep hWF hFB (lastLeaf t + 1 - rootId t) (le_refl _)
  rw [show lastLeaf t + 1 - (lastLeaf t + 1 - rootId t) = rootId t by omega] at hfold hx hy
  refine ⟨xm, ym, hfold, hx, ?_⟩
  intro c hc1 hc2
  by_cases hc : c = rootId t
  · subst hc; exact hyroot
  · obtain ⟨r, hrct, hrc⟩ := List.mem_map.1 (hWF.children_cover c
      (by rw [List.mem_range'_1]; omega))
    have := (hWF.parent_bounds r (clusterTree_subset hrct)).1
    exact hrc ▸ hy r hrct this

theorem layoutPlan_isSome (t : List Record) (sep : ℚ) (hWF : WellFormed t)
    (hFB : FullBinary t) : (layoutPlan t sep).isSome := by
  obtain ⟨xm, ym, hcoords, hx, hy⟩ := computeCoords_spec t sep hWF hFB
  have hrl : rootId t ≤ lastLeaf t := hWF.root_le_lastLeaf
  have hclusters : (listMapM (clusterPlanFor t xm ym)
      (descRange (lastLeaf t) (rootId t))).isSome := by
    apply listMapM_isSome
    intro c hc
    obtain ⟨hc1, hc2⟩ := mem_descRange.1 hc
    obtain ⟨y, hy'⟩ := Option.isSome_iff_exists.1 (hy c hc1 hc2)
    obtain ⟨x, hx'⟩ := Option.isSome_iff_exists.1 (hx c hc1 hc2)
    obtain ⟨r, hrt, hrp⟩ := hWF.parent_occurs c (by rw [List.mem_range'_1]; omega)
    have hne : t.filter (fun r => r.parent = c) ≠ [] := by
      intro hnil
      have hmem' : r ∈ t.filter (fun r => r.parent = c) := mem_filter_parent.2 ⟨hrt, hrp⟩
      rw [hnil] at hmem'
      simp at hmem'
    obtain ⟨top, htop⟩ := Option.isSome_iff_exists.1 (maxLam_isSome hne)
    simp [clusterPlanFor, hy', hx', htop]
  have hlines : (listMapM (linePlanFor xm ym) (clusterTree t)).isSome := by
    apply listMapM_isSome
    intro r hr
    obtain ⟨hp1, hp2⟩ := hWF.parent_bounds r (clusterTree_subset hr)
    have hcc : rootId t < r.child := lt_of_le_of_lt hp1 (hWF.ordered r hr)
    have hcl : r.child ≤ lastLeaf t := hWF.child_le r hr
    obtain ⟨xp, hxp⟩ := Option.isSome_iff_exists.1 (hx r.parent hp1 hp2)
    obtain ⟨xc, hxc⟩ := Option.isSome_iff_exists.1 (hx r.child (by omega) hcl)
    obtain ⟨yc, hyc⟩ := Option.isSome_iff_exists.1 (hy r.child (by omega) hcl)
    simp [linePlanFor, hxp, hxc, hyc]
  obtain ⟨cs, hcs⟩ := Option.isSome_iff_exists.1 hclusters
  obtain ⟨ls, hls⟩ := Option.isSome_iff_exists.1 hlines
  simp [layoutPlan, hcoords, hcs, hls]

/-- C3 (amended).  On a well-formed tree whose cluster tree is full binary
(every node has zero or two cluster children, and the root has two),
`get_plot_data` completes without error, in either size mode: every
coordinate lookup made during bar, bound and line construction is
defined. -/
theorem get_plot_data_isSome_of_full_binary {α : Type} [Field α]
    (enc : ℕ → α) (dec : α → ℕ → α) (t : List Record) (sep : ℚ)
    (hWF : WellFormed t) (hFB : FullBinary t) :
    (get_plot_data enc dec t sep).isSome := by
  unfold get_plot_data
  rw [Option.isSome_map']
  exact layoutPlan_isSome t sep hWF hFB

/-- C3, counterexample to the claim as stated: `oneChildTree` is well-formed
(section 3 allows a node with exactly one cluster child) but `get_plot_data`
fails on it — cluster `1`'s y coordinate is never assigned, so the bar loop's
`cluster_y_coords[1]` lookup raises. -/
theorem get_plot_data_one_child_cex :
    WellFormed oneChildTree ∧
    (get_plot_data encQ decQ oneChildTree 1).isSome = false := by
  with_unfolding_all decide

/-- Witness for the amended C3 at the scenario tree (a full binary cluster
tree), in the `log_size=False` instantiation. -/
theorem get_plot_data_isSome_witness :
    WellFormed scenarioTree ∧ FullBinary scenarioTree ∧
    (get_plot_data encQ decQ scenarioTree 1).isSome :=
  ⟨by with_unfolding_all decide, by with_unfolding_all decide,
    get_plot_data_isSome_of_full_binary encQ decQ scenarioTree 1
      (by with_unfolding_all decide) (by with_unfolding_all decide)⟩

/-- C4.  The code does not handle a zero-leaf cluster tree: on the
well-formed single-node tree `pointOnlyTree` (root with only point children)
`get_plot_data` fails — `cluster_x_coords` is empty, so the bar loop's
`cluster_x_coords[root]` lookup raises a `KeyError` instead of returning
empty bar and line sequences as the specification requires. -/
theorem get_plot_data_zero_leaves_fails :
    WellFormed pointOnlyTree ∧ get_leaves pointOnlyTree = [] ∧
    (get_plot_data encQ decQ pointOnlyTree 1).isSome = false := by
  with_unfolding_all decide

/-! ### Counting bounding boxes, positive bar widths -/

theorem layoutPlan_inv {t : List Record} {sep : ℚ} {p : Plan}
    (h : layoutPlan t sep = some p) :
    ∃ xm ym cs ls, computeCoords t sep = some (xm, ym) ∧
      listMapM (clusterPlanFor t xm ym) (descRange (lastLeaf t) (rootId t)) = some cs ∧
      listMapM (linePlanFor xm ym) (clusterTree t) = some ls ∧
      p = ⟨((t.filter (fun r => r.parent = rootId t)).map (fun r => r.child_size)).sum,
        cs, ls⟩ := by
  simp only [layoutPlan, Option.bind_eq_bind, Option.bind_eq_some, Option.pure_def,
    Option.some_inj] at h
  obtain ⟨cm, hcm, cs, hcs, ls, hls, hp⟩ := h
  exact ⟨cm.1, cm.2, cs, ls, hcm, hcs, hls, hp.symm⟩

theorem clusterPlanFor_inv {t : List Record} {xm ym : ℕ → Option ℚ} {c : ℕ}
    {cp : ClusterPlan} (h : clusterPlanFor t xm ym c = some cp) :
    cp.cid = c ∧ cp.rows = t.filter (fun r => r.parent = c) := by
  simp only [clusterPlanFor, Option.bind_eq_bind, Option.bind_eq_some, Option.pure_def,
    Option.some_inj] at h
  obtain ⟨y, _, x, _, top, _, hcp⟩ := h
  rw [← hcp]
  exact ⟨rfl, rfl⟩

theorem renderLayout_cluster_bounds {α : Type} [Field α] (enc : ℕ → α)
    (dec : α → ℕ → α) (p : Plan) :
    (renderLayout enc dec p).cluster_bounds
      = (p.clusters.map (renderCluster enc dec (enc p.scalingCount))).map
          (fun pr => pr.1) := rfl

theorem renderLayout_bar_widths {α : Type} [Field α] (enc : ℕ → α)
    (dec : α → ℕ → α) (p : Plan) :
    (renderLayout enc dec p).bar_widths
      = ((p.clusters.map (renderCluster enc dec (enc p.scalingCount))).map
          (fun pr => pr.2)).flatten.map (fun b => b.2.2.2) := rfl

theorem renderCluster_snd {α : Type} [Field α] (enc : ℕ → α) (dec : α → ℕ → α)
    (scaling : α) (cp : ClusterPlan) :
    (renderCluster enc dec scaling cp).2
      = barLoop dec ((cp.x : α) * scaling)
          (enc ((cp.rows.map (fun r => r.child_size)).sum)) cp.y
          (sortLam cp.rows) := rfl

theorem descRange_length (hi lo : ℕ) : (descRange hi lo).length = hi + 1 - lo := by
  simp [descRange]

theorem clusterNodeCount_eq {t : List Record} (hWF : WellFormed t) :
    clusterNodeCount t = lastLeaf t + 1 - rootId t := by
  unfold clusterNodeCount
  have hnodup : (rootId t :: (clusterTree t).map (fun r => r.child)).Nodup := by
    rw [List.nodup_cons]
    refine ⟨?_, hWF.children_nodup⟩
    intro hmem
    obtain ⟨r, hr, hc⟩ := List.mem_map.1 hmem
    have h1 := (hWF.parent_bounds r (clusterTree_subset hr)).1
    have h2 := hWF.ordered r hr
    omega
  rw [List.dedup_eq_self.2 hnodup, List.length_cons]
  have hperm : List.Perm ((clusterTree t).map (fun r => r.child))
      (List.range' (rootId t + 1) (lastLeaf t - rootId t)) := by
    rw [List.perm_ext_iff_of_nodup hWF.children_nodup (List.nodup_range' _ _)]
    intro a
    rw [List.mem_range'_1]
    constructor
    · intro ha
      obtain ⟨r, hr, hc⟩ := List.mem_map.1 ha
      have h1 := (hWF.parent_bounds r (clusterTree_subset hr)).1
      have h2 := hWF.ordered r hr
      have h3 := hWF.child_le r hr
      omega
    · intro ha
      exact hWF.children_cover a (by rw [List.mem_range'_1]; omega)
  rw [hperm.length_eq, List.length_range']
  have := hWF.root_le_lastLeaf
  omega

/-- C7.  The `cluster_bounds` dictionary has one entry per id of
`range(last_leaf, root-1, -1)`, which on a well-formed tree is exactly the
set of cluster-tree nodes: the root together with every distinct cluster
child. -/
theorem cluster_bounds_count (t : List Record) (sep : ℚ) (hWF : WellFormed t) :
    (get_plot_data encQ decQ t sep).elim True
      (fun res => res.cluster_bounds.length = clusterNodeCount t) := by
  unfold get_plot_data
  cases hplan : layoutPlan t sep with
  | none => simp
  | some p =>
    simp only [Option.map_some', Option.elim_some]
    rw [renderLayout_cluster_bounds, List.length_map, List.length_map]
    obtain ⟨xm, ym, cs, ls, hcm, hcs, hls, hp⟩ := layoutPlan_inv hplan
    rw [hp]
    show cs.length = clusterNodeCount t
    rw [listMapM_length hcs, descRange_length, clusterNodeCount_eq hWF]

/-- Every bar width emitted by the non-log bar loop is positive, as long as
the running size starts at the exact total of the children's sizes and all
sizes are at least 1. -/
theorem barLoop_decQ_width_pos :
    ∀ (rows : List Record) (center lam : ℚ) (k : ℕ),
      (∀ r ∈ rows, 1 ≤ r.child_size) → k = (rows.map (fun r => r.child_size)).sum →
      ∀ b ∈ barLoop decQ center (k : ℚ) lam rows, 0 < b.2.2.2 := by
  intro rows
  induction rows with
  | nil => intro center lam k _ _ b hb; simp [barLoop] at hb
  | cons r rest ih =>
    intro center lam k hsz hk b hb
    have hr1 : 1 ≤ r.child_size := hsz r (List.mem_cons_self r rest)
    have hk1 : r.child_size ≤ k := by
      rw [hk, List.map_cons, List.sum_cons]; omega
    rw [show barLoop decQ center (k : ℚ) lam (r :: rest)
        = (if r.lambda ≠ lam then [(center, r.lambda - lam, lam, (k : ℚ))] else []) ++
          barLoop decQ center (decQ (k : ℚ) r.child_size) r.lambda rest from rfl] at hb
    rcases List.mem_append.1 hb with hb | hb
    · have hbne : b = (center, r.lambda - lam, lam, (k : ℚ)) := by
        by_cases hcond : r.lambda ≠ lam
        · rw [if_pos hcond] at hb
          exact List.mem_singleton.1 hb
        · rw [if_neg hcond] at hb
          exact absurd hb (List.not_mem_nil b)
      rw [hbne]
      show 0 < (k : ℚ)
      have : 0 < k := by omega
      exact_mod_cast this
    · have hdec : decQ (k : ℚ) r.child_size = ((k - r.child_size : ℕ) : ℚ) := by
        show (k : ℚ) - (r.child_size : ℚ) = ((k - r.child_size : ℕ) : ℚ)
        rw [Nat.cast_sub hk1]
      rw [hdec] at hb
      refine ih center r.lambda (k - r.child_size)
        (fun x hx => hsz x (List.mem_cons_of_mem r hx)) ?_ b hb
      rw [hk, List.map_cons, List.sum_cons]
      omega

/-- C10.  In non-log mode every emitted bar width is strictly positive: at
each emission the width is the summed size of the children not yet
processed, which includes the child triggering the event. -/
theorem bar_widths_pos (t : List Record) (sep : ℚ) (hWF : WellFormed t) :
    (get_plot_data encQ decQ t sep).elim True
      (fun res => ∀ w ∈ res.bar_widths, 0 < w) := by
  unfold get_plot_data
  cases hplan : layoutPlan t sep with
  | none => simp
  | some p =>
    simp only [Option.map_some', Option.elim_some]
    intro w hw
    rw [renderLayout_bar_widths] at hw
    obtain ⟨b, hb, hbw⟩ := List.mem_map.1 hw
    obtain ⟨bl, hbl, hbmem⟩ := List.mem_flatten.1 hb
    obtain ⟨pr, hpr, hpr2⟩ := List.mem_map.1 hbl
    obtain ⟨cp, hcp, hcppr⟩ := List.mem_map.1 hpr
    obtain ⟨xm, ym, cs, ls, hcm, hcs, hls, hp⟩ := layoutPlan_inv hplan
    have hcp' : cp ∈ cs := by rw [hp] at hcp; exact hcp
    obtain ⟨c, _, hcpf⟩ := listMapM_mem hcs cp hcp'
    have hrows : cp.rows = t.filter (fun r => r.parent = c) :=
      (clusterPlanFor_inv hcpf).2
    have hsz : ∀ r ∈ sortLam cp.rows, 1 ≤ r.child_size := by
      intro r hr
      have hr' : r ∈ cp.rows := (sortLam_perm cp.rows).mem_iff.1 hr
      rw [hrows] at hr'
      exact hWF.sizes r (mem_filter_parent.1 hr').1
    have hsum : ((sortLam cp.rows).map (fun r => r.child_size)).sum
        = (cp.rows.map (fun r => r.child_size)).sum :=
      ((sortLam_perm cp.rows).map (fun r => r.child_size)).sum_eq
    rw [← hcppr, renderCluster_snd] at hpr2
    rw [← hpr2] at hbmem
    have hwpos := barLoop_decQ_width_pos (sortLam cp.rows)
      ((cp.x : ℚ) * encQ p.scalingCount) cp.y
      ((cp.rows.map (fun r => r.child_size)).sum) hsz hsum.symm b ?_
    · rw [← hbw]; exact hwpos
    · exact hbmem

/-! ### Log-size mode -/

theorem plan_cluster_rows {t : List Record} {sep : ℚ} {p : Plan}
    (hplan : layoutPlan t sep = some p) :
    ∀ cp ∈ p.clusters, ∃ c, cp.rows = t.filter (fun r => r.parent = c) := by
  intro cp hcp
  obtain ⟨xm, ym, cs, ls, hcm, hcs, hls, hp⟩ := layoutPlan_inv hplan
  have hcp' : cp ∈ cs := by rw [hp] at hcp; exact hcp
  obtain ⟨c, _, hcpf⟩ := listMapM_mem hcs cp hcp'
  exact ⟨c, (clusterPlanFor_inv hcpf).2⟩

/-- In exact arithmetic the log-mode bar loop tracks the log of the integer
running size: starting from `log k` with `k` at least the sum of the
remaining children's sizes, each emitted width is the log of the width the
plain loop emits there. -/
theorem barLoop_log_widths (cQ : ℚ) (cR : ℝ) :
    ∀ (rows : List Record) (k j : ℕ) (lam : ℚ),
      (∀ r ∈ rows, 1 ≤ r.child_size) →
      k = (rows.map (fun r => r.child_size)).sum + j →
      (barLoop (fun s c => Real.log (Real.exp s - (c : ℝ))) cR
          (Real.log (k : ℝ)) lam rows).map (fun b => b.2.2.2)
        = ((barLoop decQ cQ ((k : ℕ) : ℚ) lam rows).map (fun b => b.2.2.2)).map
            (fun q => Real.log ((q : ℚ) : ℝ)) := by
  intro rows
  induction rows with
  | nil => intro k j lam _ _; rfl
  | cons r rest ih =>
    intro k j lam hsz hk
    have hr1 : 1 ≤ r.child_size := hsz r (List.mem_cons_self r rest)
    have hkpos : 0 < k := by rw [hk, List.map_cons, List.sum_cons]; omega
    have hk1 : r.child_size ≤ k := by rw [hk, List.map_cons, List.sum_cons]; omega
    have hexp : Real.exp (Real.log (k : ℝ)) = (k : ℝ) :=
      Real.exp_log (by exact_mod_cast hkpos)
    have hrec := ih (k - r.child_size) j r.lambda
      (fun x hx => hsz x (List.mem_cons_of_mem r hx))
      (by rw [hk, List.map_cons, List.sum_cons]; omega)
    simp only [barLoop, List.map_append]
    congr 1
    · by_cases hcond : r.lambda ≠ lam
      · rw [if_pos hcond, if_pos hcond]
        show [Real.log (k : ℝ)] = [Real.log (((k : ℚ) : ℝ))]
        rw [Rat.cast_natCast]
      · rw [if_neg hcond, if_neg hcond]
        rfl
    · have hdR : Real.log (Real.exp (Real.log (k : ℝ)) - (r.child_size : ℝ))
          = Real.log (((k - r.child_size : ℕ) : ℝ)) := by
        rw [hexp, Nat.cast_sub hk1]
      have hdQ : decQ ((k : ℕ) : ℚ) r.child_size = ((k - r.child_size : ℕ) : ℚ) := by
        show ((k : ℚ)) - ((r.child_size : ℕ) : ℚ) = _
        rw [Nat.cast_sub hk1]
      rw [hdR, hdQ]
      exact hrec

/-- C8.  On the same tree, the `log_size=True` run (sizes transformed by
`log`, decremented by `log (exp s - c)`, in exact real arithmetic) succeeds
exactly when the `log_size=False` run does, its bar-width sequence has the
same length, and each of its bar widths is the natural log of the point
count emitted as the corresponding plain bar width. -/
theorem log_size_bar_widths (t : List Record) (sep : ℚ) (hWF : WellFormed t) :
    (get_plot_data (fun n => Real.log (n : ℝ))
        (fun s c => Real.log (Real.exp s - (c : ℝ))) t sep).map
        (fun res => res.bar_widths)
      = (get_plot_data encQ decQ t sep).map
          (fun res => res.bar_widths.map (fun q => Real.log ((q : ℚ) : ℝ))) ∧
    (get_plot_data (fun n => Real.log (n : ℝ))
        (fun s c => Real.log (Real.exp s - (c : ℝ))) t sep).map
        (fun res => res.bar_widths.length)
      = (get_plot_data encQ decQ t sep).map (fun res => res.bar_widths.length) := by
  have hmain : (get_plot_data (fun n => Real.log (n : ℝ))
      (fun s c => Real.log (Real.exp s - (c : ℝ))) t sep).map
      (fun res => res.bar_widths)
    = (get_plot_data encQ decQ t sep).map
        (fun res => res.bar_widths.map (fun q => Real.log ((q : ℚ) : ℝ))) := by
    unfold get_plot_data
    cases hplan : layoutPlan t sep with
    | none => rfl
    | some p =>
      simp only [Option.map_some', Option.some_inj]
      rw [renderLayout_bar_widths, renderLayout_bar_widths]
      simp only [List.map_flatten, List.map_map]
      congr 1
      apply List.map_congr_left
      intro cp hcp
      simp only [Function.comp_apply]
      obtain ⟨c, hrows⟩ := plan_cluster_rows hplan cp hcp
      have hsz : ∀ r ∈ sortLam cp.rows, 1 ≤ r.child_size := by
        intro r hr
        have hr' : r ∈ cp.rows := (sortLam_perm cp.rows).mem_iff.1 hr
        rw [hrows] at hr'
        exact hWF.sizes r (mem_filter_parent.1 hr').1
      have hsum : (cp.rows.map (fun r => r.child_size)).sum
          = ((sortLam cp.rows).map (fun r => r.child_size)).sum + 0 := by
        rw [Nat.add_zero]
        exact (((sortLam_perm cp.rows).map (fun r => r.child_size)).sum_eq).symm
      show ((renderCluster (fun n => Real.log (n : ℝ)) _ _ cp).2).map (fun b => b.2.2.2)
        = (((renderCluster encQ decQ _ cp).2).map (fun b => b.2.2.2)).map
            (fun q => Real.log ((q : ℚ) : ℝ))
      rw [renderCluster_snd, renderCluster_snd]
      exact barLoop_log_widths _ _ (sortLam cp.rows)
        ((cp.rows.map (fun r => r.child_size)).sum) 0 cp.y hsz hsum
  refine ⟨hmain, ?_⟩
  cases hq : get_plot_data encQ decQ t sep with
  | none =>
    rw [hq] at hmain
    cases hr : get_plot_data (fun n => Real.log (n : ℝ))
        (fun s c => Real.log (Real.exp s - (c : ℝ))) t sep with
    | none => rfl
    | some resR => rw [hr] at hmain; simp at hmain
  | some resQ =>
    rw [hq] at hmain
    cases hr : get_plot_data (fun n => Real.log (n : ℝ))
        (fun s c => Real.log (Real.exp s - (c : ℝ))) t sep with
    | none => rw [hr] at hmain; simp at hmain
    | some resR =>
      rw [hr] at hmain
      simp only [Option.map_some', Option.some_inj] at hmain ⊢
      rw [hmain, List.length_map]

/-! ### The concrete scenario -/

/-- C5, counterexample to the claim as stated: on the scenario tree the line
loop emits one connector line per cluster-tree record, and there are four of
those (`0→1`, `0→2`, `1→3`, `1→4`) — not two. -/
theorem scenario_line_count_cex :
    (get_plot_data encQ decQ scenarioTree 1).map (fun res => res.line_xs.length)
        = some 4 ∧
    ¬ (get_plot_data encQ decQ scenarioTree 1).map (fun res => res.line_xs.length)
        = some 2 := by
  with_unfolding_all decide

/-- C5 (amended).  On the scenario tree, for any leaf separation: the leaves
are `[2, 3, 4]` with x coordinates `0, 1, 2` times the separation; cluster
`1` sits at the mean of the x coordinates of `3` and `4`;
`cluster_y_coords[1] = cluster_y_coords[2] = 1/2`; exactly three bars are
emitted — one each for clusters `2`, `1`, `0` (widths 60, 40, 100, each
covering its mass-loss interval) — and exactly four connector lines, one per
cluster-tree edge (`0→1`, `0→2`, `1→3`, `1→4`), drawn at the children's
split lambdas. -/
theorem scenario_layout (sep : ℚ) :
    get_leaves scenarioTree = [2, 3, 4] ∧
    (computeCoords scenarioTree sep).map (fun pr =>
        (pr.1 2, pr.1 3, pr.1 4, pr.1 1, pr.2 1, pr.2 2))
      = some (some (sep * 0), some (sep * 1), some (sep * 2),
          some ((sep * 1 + sep * 2) / 2), some (1/2), some (1/2)) ∧
    (get_plot_data encQ decQ scenarioTree sep).map (fun res =>
        (res.bar_widths, res.bar_tops, res.bar_bottoms,
         res.line_xs.length, res.line_ys))
      = some ([60, 40, 100], [1/2, 1/2, 1/2], [1/2, 1/2, 0], 4,
          [(1/2, 1/2), (1/2, 1/2), (1, 1), (1, 1)]) := by
  refine ⟨by with_unfolding_all decide, ?_, ?_⟩
  · with_unfolding_all rfl
  · with_unfolding_all rfl

/-- Witness for C7 at the scenario tree. -/
theorem cluster_bounds_count_witness :
    WellFormed scenarioTree ∧
    (get_plot_data encQ decQ scenarioTree 1).elim True
      (fun res => res.cluster_bounds.length = clusterNodeCount scenarioTree) :=
  ⟨by with_unfolding_all decide,
    cluster_bounds_count scenarioTree 1 (by with_unfolding_all decide)⟩

/-- Witness for C10 at the scenario tree. -/
theorem bar_widths_pos_witness :
    WellFormed scenarioTree ∧
    (get_plot_data encQ decQ scenarioTree 1).elim True
      (fun res => ∀ w ∈ res.bar_widths, 0 < w) :=
  ⟨by with_unfolding_all decide,
    bar_widths_pos scenarioTree 1 (by with_unfolding_all decide)⟩

/-- Witness for C8 at the scenario tree. -/
theorem log_size_bar_widths_witness :
    WellFormed scenarioTree ∧
    ((get_plot_data (fun n => Real.log (n : ℝ))
        (fun s c => Real.log (Real.exp s - (c : ℝ))) scenarioTree 1).map
        (fun res => res.bar_widths)
      = (get_plot_data encQ decQ scenarioTree 1).map
          (fun res => res.bar_widths.map (fun q => Real.log ((q : ℚ) : ℝ))) ∧
    (get_plot_data (fun n => Real.log (n : ℝ))
        (fun s c => Real.log (Real.exp s - (c : ℝ))) scenarioTree 1).map
        (fun res => res.bar_widths.length)
      = (get_plot_data encQ decQ scenarioTree 1).map
          (fun res => res.bar_widths.length)) :=
  ⟨by with_unfolding_all decide,
    log_size_bar_widths scenarioTree 1 (by with_unfolding_all decide)⟩

end Hdbscan
